import Mathlib

/-!
Shallow embedding of the zkVM execution driver (`risc0/zkvm/src/exec/mod.rs`):
the cycle-accounting and segmentation state machine of the Executor.

The Executor core (`apply`, `step`, `split`, `start_segment`,
`handle_out_of_cycles`, `segment_cycles_remaining`, `run_with_callback`) is
translated directly from the source.  Collaborator modules that are not part
of the provided sources (the page table in `memory.rs`, the memory image, the
environment, the RV32IM stepper and the syscall layer) are modelled from the
specification: the stepper and the syscall layer act as oracles supplying
`PendingInst` / `PendingECall` values, and the page table follows the
spec's description (per-page charged/uncharged status, Merkle ancestors,
`CYCLES_PER_FULL_PAGE` per page transition).

Machine integers: the Rust code uses `usize`/`u32` arithmetic.  Additions
cannot realistically overflow, so they are modelled on `Nat`; the one place
where unsigned arithmetic can go below zero (`segment_cycles_remaining`) is
modelled as a fallible computation (`Except`), matching the debug-mode panic
of an underflowing `usize` subtraction.
-/

/-- Direction of a page-table access (`memory::Dir`). -/
inductive Dir where
  | Load
  | Store
deriving DecidableEq, Repr

/-- Exit codes of a segment / session (`receipt::ExitCode`).  The variant the
source calls `SessionLimit` is the one the spec calls `SystemLimit`. -/
inductive ExitCode where
  | Halted (user_exit : Nat)
  | Paused (user_exit : Nat)
  | SystemSplit
  | SessionLimit
deriving DecidableEq, Repr

/-- An event traced from the running VM (`TraceEvent`). -/
inductive TraceEvent where
  | InstructionStart (cycle : Nat) (pc : Nat)
  | RegisterSet (reg : Nat) (value : Nat)
  | MemorySet (addr : Nat) (value : Nat)
deriving DecidableEq, Repr

/-- Host-facing record of a syscall (`SyscallRecord`). -/
structure SyscallRecord where
  to_guest : List Nat
  regs : Nat × Nat
deriving DecidableEq, Repr

/-- Pending instruction produced by the RV32IM stepper (`rv32im::PendingInst`).
Modelled from the spec: the stepper itself is out of scope and acts as an
oracle; these are exactly the effect descriptions the Executor consumes. -/
inductive PendingInst where
  | ECall
  | MemoryLoad (addr : Nat) (val : Nat) (reg : Nat)
  | MemoryStore (addr : Nat) (val : Nat)
  | RegisterStore (reg : Nat) (val : Nat) (new_pc : Nat) (cycles : Nat)
deriving DecidableEq, Repr

/-- Pending ecall produced by the syscall layer (`ecall::PendingECall`).
Modelled from the spec: ordered register writes, ordered RAM writes, requested
page loads, optional syscall record, optional exit code and base cycles. -/
structure PendingECall where
  ram_writes : List (Nat × Nat)
  reg_writes : List (Nat × Nat)
  page_loads : List Nat
  syscall : Option SyscallRecord
  exit_code : Option ExitCode
  cycles : Nat
deriving DecidableEq, Repr

/-- Operation that has been executed but not applied (`PendingOp`). -/
inductive PendingOp where
  | PendingInst (inst : PendingInst)
  | PendingECall (ecall : PendingECall)
deriving DecidableEq, Repr

/-- Per-segment page-table scratch state.  Modelled from the spec
(`memory::PageTable` is not among the provided sources): `loaded` is the set
of pages whose load transition has been charged, `dirty` the set of pages
whose dirty transition has been charged. -/
structure PageTable where
  loaded : List Nat
  dirty : List Nat
deriving DecidableEq, Repr

/-- Final per-direction page-fault sets of a segment (`memory::PageFaults`). -/
structure PageFaults where
  reads : List Nat
  writes : List Nat
deriving DecidableEq, Repr

/-- Persistent view of guest memory (`MemoryImage`).  Modelled from the spec:
page data plus an embedded `pc` and a root digest updated by `hash_pages`. -/
structure MemoryImage where
  data : List Nat
  pc : Nat
  root : Nat
deriving DecidableEq, Repr

/-- Boundary artifact of one proven slice of execution (`Segment`). -/
structure Segment where
  pre_image : MemoryImage
  post_image_id : Nat
  faults : PageFaults
  syscalls : List SyscallRecord
  exit_code : ExitCode
  split_insn : Option Nat
  po2 : Nat
  index : Nat
  insn_cycles : Nat
deriving DecidableEq, Repr

/-- Result of a complete run (`Session`). -/
structure Session where
  segments : List Segment
  journal : List Nat
  exit_code : ExitCode
deriving DecidableEq, Repr

/-- Failure modes of the embedded driver.  `cycleUnderflow` models the
debug-mode panic of the unsigned subtraction in `segment_cycles_remaining`;
`invariantViolation` models `assert!`/`panic!`; `sessionLimitExceeded` models
`bail!("Session limit exceeded")`; `outOfFuel` and `oracleExhausted` are
artifacts of the fueled loop and of the oracle scripts. -/
inductive ExecErr where
  | cycleUnderflow
  | invariantViolation
  | sessionLimitExceeded
  | outOfFuel
  | oracleExhausted
deriving DecidableEq, Repr

/-- The number of cycles required to compress a SHA-256 block (`SHA_CYCLES`). -/
def SHA_CYCLES : Nat := 72

/-- External configuration and platform constants consumed by the Executor:
the environment (`env.segment_limit` as a po2, `env.session_limit`), the
loader's fixed cycle counts, the platform constants `PAGE_SIZE`, `MEM_SIZE`,
`SYSTEM.start()`, `CYCLES_PER_FULL_PAGE`, `MIN_CYCLES_PO2`, `MAX_CYCLES_PO2`,
`ZK_CYCLES`, the Merkle ancestry of the page table and the page-digest hash.
Modelled from the spec: these all live in modules outside the provided
sources. -/
structure Config where
  pageSize : Nat
  memSize : Nat
  systemStart : Nat
  cyclesPerFullPage : Nat
  ancestors : Nat → List Nat
  rootIdx : Nat
  minCyclesPo2 : Nat
  maxCyclesPo2 : Nat
  envSegmentLimitPo2 : Nat
  sessionLimit : Nat
  loaderInitCycles : Nat
  loaderFiniCycles : Nat
  zkCycles : Nat
  hashFn : List Nat → Nat → Nat

/-- `env.get_segment_limit()`: the per-segment cycle cap, `1 << po2` of the
configured segment-limit po2. -/
def Config.getSegmentLimit (cfg : Config) : Nat := 2 ^ cfg.envSegmentLimitPo2

/-- `risc0_zkp::core::log2_ceil`: the least `k` with `n ≤ 2^k`.  Defined by
linear search so that it evaluates by kernel reduction. -/
def log2_ceil (n : Nat) : Nat :=
  match (List.range (n + 1)).find? (fun k => decide (n ≤ 2 ^ k)) with
  | some k => k
  | none => 0

/-- The set of pages a page-table direction tracks. -/
def ptSet (pt : PageTable) : Dir → List Nat
  | .Load => pt.loaded
  | .Store => pt.dirty

/-- Record that a page transition has been charged. -/
def ptInsert (pt : PageTable) (d : Dir) (p : Nat) : PageTable :=
  match d with
  | .Load => { pt with loaded := p :: pt.loaded }
  | .Store => { pt with dirty := p :: pt.dirty }

/-- A page together with its Merkle ancestors, without duplicates.
Modelled from the spec: loading a leaf page transitively requires each
ancestor page on the path to the root. -/
def pageClosure (cfg : Config) (p : Nat) : List Nat :=
  (p :: cfg.ancestors p).dedup

/-- Charge a single page transition: `CYCLES_PER_FULL_PAGE` if it has not been
charged yet in this segment, `0` otherwise. -/
def markPage (cfg : Config) (pt : PageTable) (p : Nat) (d : Dir) : Nat × PageTable :=
  if p ∈ ptSet pt d then (0, pt) else (cfg.cyclesPerFullPage, ptInsert pt d p)

/-- Charge a list of page transitions in order, accumulating the cycles. -/
def markList (cfg : Config) : PageTable → List Nat → Dir → Nat × PageTable
  | pt, [], _ => (0, pt)
  | pt, p :: rest, d =>
    let m := markPage cfg pt p d
    let r := markList cfg m.2 rest d
    (m.1 + r.1, r.2)

/-- `page_table.mark_addr(addr, dir)`: commit the marking of the page holding
`addr` together with its ancestors, returning the incremental cycle count. -/
def markAddr (cfg : Config) (pt : PageTable) (addr : Nat) (d : Dir) : Nat × PageTable :=
  markList cfg pt (pageClosure cfg (addr / cfg.pageSize)) d

/-- `page_table.pages_needed(page, dir)`: the pages that would transition on
such a marking. -/
def pagesNeeded (cfg : Config) (pt : PageTable) (p : Nat) (d : Dir) : List Nat :=
  (pageClosure cfg p).filter (fun q => decide (q ∉ ptSet pt d))

/-- `page_table.cycles_needed(page, dir)`: incremental cycles to make the page
resident / dirty-tracked, including not-yet-marked ancestors. -/
def cyclesNeeded (cfg : Config) (pt : PageTable) (p : Nat) (d : Dir) : Nat :=
  cfg.cyclesPerFullPage * (pagesNeeded cfg pt p d).length

/-- `page_table.mark_root()`: pre-charge the Merkle root being resident for
this segment, returning `(read_cycles, write_cycles)`. -/
def markRoot (cfg : Config) (pt : PageTable) : (Nat × Nat) × PageTable :=
  let r := markList cfg pt (pageClosure cfg cfg.rootIdx) .Load
  let w := markList cfg r.2 (pageClosure cfg cfg.rootIdx) .Store
  ((r.1, w.1), w.2)

/-- `page_table.calc_page_faults()`: pages loaded / flushed this segment. -/
def calcPageFaults (pt : PageTable) : PageFaults :=
  { reads := pt.loaded, writes := pt.dirty }

/-- `page_table.clear()`: reset to Unloaded for the next segment. -/
def PageTable.clear : PageTable := { loaded := [], dirty := [] }

/-- Read the little-endian word at `addr` from a byte list. -/
def loadWordList (l : List Nat) (addr : Nat) : Nat :=
  l.getD addr 0 + 256 * l.getD (addr + 1) 0 + 65536 * l.getD (addr + 2) 0
    + 16777216 * l.getD (addr + 3) 0

/-- Store the little-endian bytes of `val` at `addr` in a byte list. -/
def storeWord (l : List Nat) (addr : Nat) (val : Nat) : List Nat :=
  ((((l.set addr (val % 256)).set (addr + 1) (val / 256 % 256)).set
      (addr + 2) (val / 65536 % 256)).set (addr + 3) (val / 16777216 % 256))

/-- `image_to_ram`: copy the image pages into the flat RAM byte array. -/
def imageToRam (cfg : Config) (img : MemoryImage) : List Nat :=
  (List.range cfg.memSize).map (fun i => img.data.getD i 0)

/-- Load the register file from the SYSTEM region of the image
(`image_to_regs` via `load_region_in_page`). -/
def imageToRegs (cfg : Config) (img : MemoryImage) : List Nat :=
  (List.range 32).map (fun i => loadWordList img.data (cfg.systemStart + 4 * i))

/-- Copy one page of RAM back into the image data. -/
def copyPage (cfg : Config) (d ram : List Nat) (p : Nat) : List Nat :=
  (List.range cfg.pageSize).foldl
    (fun acc i => acc.set (p * cfg.pageSize + i) (ram.getD (p * cfg.pageSize + i) 0)) d

/-- `ram_to_image`: fold the dirty pages of RAM back into the image. -/
def ramToImage (cfg : Config) (img : MemoryImage) (ram : List Nat)
    (writes : List Nat) : MemoryImage :=
  { img with data := writes.foldl (fun d p => copyPage cfg d ram p) img.data }

/-- `regs_to_image`: persist the register file into the SYSTEM region of the
image and embed the pc. -/
def regsToImage (cfg : Config) (img : MemoryImage) (regs : List Nat)
    (pc : Nat) : MemoryImage :=
  { img with
    data := (List.range 32).foldl
      (fun d i => storeWord d (cfg.systemStart + 4 * i) (regs.getD i 0)) img.data
    pc := pc }

/-- `pre_image.hash_pages()`: re-digest the pages and recompute the root. -/
def hashPages (cfg : Config) (img : MemoryImage) : MemoryImage :=
  { img with root := cfg.hashFn img.data img.pc }

/-- `pre_image.compute_id()`: the root digest of the image. -/
def computeId (img : MemoryImage) : Nat := img.root

/-- The Executor's mutable state (`struct Executor`), with the trace sink
modelled as an accumulated event list. -/
structure Executor where
  cur_segment : Segment
  segment_limit : Nat
  segment_cycle : Nat
  read_cycles : Nat
  write_cycles : Nat
  init_cycles : Nat
  fini_cycles : Nat
  prev_segment_cycles : Nat
  pc : Nat
  regs : List Nat
  ram : List Nat
  page_table : PageTable
  pending_op : Option PendingOp
  segments : List Segment
  trace : List TraceEvent
deriving Repr

/-- `MachineState::load_reg`. -/
def Executor.loadReg (s : Executor) (reg : Nat) : Nat := s.regs.getD reg 0

/-- `MachineState::load_ram`: the little-endian word at `addr`. -/
def Executor.loadRam (s : Executor) (addr : Nat) : Nat := loadWordList s.ram addr

/-- The committed cycles plus the cycles reserved for paging and finalization:
`segment_cycle + read_cycles + write_cycles + fini_cycles`. -/
def Executor.cycSum (s : Executor) : Nat :=
  s.segment_cycle + s.read_cycles + s.write_cycles + s.fini_cycles

/-- Emit a trace event (`Executor::trace`). -/
def Executor.traceEv (s : Executor) (e : TraceEvent) : Executor :=
  { s with trace := s.trace ++ [e] }

/-- `Executor::segment_cycles_remaining`: `segment_limit - segment_cycle -
read_cycles - write_cycles - fini_cycles - 1` in unsigned arithmetic.  The
chained `usize` subtraction panics (debug) or wraps (release) exactly when
the subtracted terms plus one exceed `segment_limit`; that case is modelled
as the error `cycleUnderflow`. -/
def Executor.segmentCyclesRemaining (s : Executor) : Except ExecErr Nat :=
  if s.cycSum + 1 ≤ s.segment_limit then
    .ok (s.segment_limit - s.segment_cycle - s.read_cycles - s.write_cycles
      - s.fini_cycles - 1)
  else .error .cycleUnderflow

/-- `Executor::handle_out_of_cycles`: grow the segment in place while
`segment_limit < env.get_segment_limit()`, otherwise request a system split.
The `assert!(po2 < MAX_CYCLES_PO2)` after the increment is modelled as a
possible `invariantViolation`. -/
def Executor.handleOutOfCycles (cfg : Config) (s : Executor) :
    Except ExecErr (Executor × Option ExitCode) :=
  if s.segment_limit < cfg.getSegmentLimit then
    let po2 := s.cur_segment.po2 + 1
    if po2 < cfg.maxCyclesPo2 then
      .ok ({ s with cur_segment := { s.cur_segment with po2 := po2 },
                    segment_limit := 2 ^ po2 }, none)
    else .error .invariantViolation
  else .ok (s, some .SystemSplit)

/-- `Executor::start_segment`.  The Rust code asserts `segment_cycle == 0`;
both call sites (`new` and `split`) have just zeroed the counter, so the
assertion always holds and the function is modelled as total. -/
def Executor.startSegment (cfg : Config) (s : Executor) : Executor :=
  let s1 := { s with segment_cycle := s.init_cycles }
  let mr := markRoot cfg s1.page_table
  let s2 := { s1 with read_cycles := s1.read_cycles + mr.1.1,
                      write_cycles := mr.1.2,
                      page_table := mr.2 }
  let po2 := log2_ceil (s2.segment_cycle + s2.read_cycles + s2.write_cycles
    + s2.fini_cycles)
  { s2 with cur_segment := { s2.cur_segment with po2 := po2, insn_cycles := 0 },
            segment_limit := 2 ^ po2 }

/-- The state updates of `Executor::split` that precede `start_segment`:
take the cycle counters into `prev_segment_cycles` (a `Halted` exit forces
the write cycles to zero), take the syscall log, bump the segment index,
clear the page table and fold the dirty pages and the register file back into
the next segment's pre-image (re-hashing it).  The segment sink is modelled
as direct accumulation. -/
def Executor.splitPrepDoc : Unit := ()

/-- The write-cycle take of `split`: a `Halted` exit forces zero, the other
exits take the accumulated value. -/
def splitWriteCycles (exit_code : ExitCode) (w : Nat) : Nat :=
  match exit_code with
  | .Halted _ => 0
  | _ => w

def Executor.splitPrep (cfg : Config) (s : Executor) (exit_code : ExitCode) :
    Executor :=
  { s with
      read_cycles := 0
      write_cycles := 0
      segment_cycle := 0
      prev_segment_cycles := s.prev_segment_cycles + s.segment_cycle
        + s.read_cycles
        + splitWriteCycles exit_code s.write_cycles
        + s.fini_cycles
      page_table := PageTable.clear
      cur_segment := { s.cur_segment with
        syscalls := []
        index := s.cur_segment.index + 1
        pre_image := hashPages cfg (regsToImage cfg
          (ramToImage cfg s.cur_segment.pre_image s.ram
            (calcPageFaults s.page_table).writes) s.regs s.pc) } }

/-- The finished old segment that `split` emits: the cloned current segment
with the chained post-image id, the exit code, the page faults and the
split-instruction marker filled in (its syscalls are taken and restored
verbatim, its index predates the increment). -/
def Executor.splitOld (cfg : Config) (s : Executor) (exit_code : ExitCode) :
    Segment :=
  let faults := calcPageFaults s.page_table
  let pre := hashPages cfg (regsToImage cfg
    (ramToImage cfg s.cur_segment.pre_image s.ram faults.writes) s.regs s.pc)
  { s.cur_segment with
      post_image_id := computeId pre
      exit_code := exit_code
      faults := faults
      split_insn := some s.cur_segment.insn_cycles }

/-- The non-failing body of `Executor::split`: update the cycle accounting,
fold RAM and registers into the next pre-image, start the next segment and
append the finished old segment. -/
def Executor.splitOk (cfg : Config) (s : Executor) (exit_code : ExitCode) :
    Executor :=
  let s6 := Executor.startSegment cfg (Executor.splitPrep cfg s exit_code)
  { s6 with segments := s6.segments ++ [Executor.splitOld cfg s exit_code] }

/-- `Executor::split` (see `Executor.splitOk` for the non-failing body):
a `SessionLimit` exit code fails with `SessionLimitExceeded`. -/
def Executor.split (cfg : Config) (s : Executor) (exit_code : ExitCode) :
    Except ExecErr Executor :=
  match exit_code with
  | .SessionLimit => .error .sessionLimitExceeded
  | _ => .ok (Executor.splitOk cfg s exit_code)

/-- `Executor::calc_ecall_pages`: union the requested page loads with the
pages of every RAM-write target, then expand loads through
`pages_needed(_, Load)` and stores through `pages_needed(_, Store)`. -/
def calcEcallPages (cfg : Config) (pt : PageTable) (e : PendingECall) :
    List Nat × List Nat :=
  let page_stores := (e.ram_writes.map (fun av => av.1 / cfg.pageSize)).dedup
  let page_loads := (e.page_loads ++ page_stores).dedup
  let loads_needed := (page_loads.flatMap (fun p => pagesNeeded cfg pt p .Load)).dedup
  let stores_needed := (page_stores.flatMap (fun p => pagesNeeded cfg pt p .Store)).dedup
  (loads_needed, stores_needed)

/-- The estimated cycle cost of a pending operation, before the instruction
fetch page is added (the per-arm part of the `cycles_needed` match in
`Executor::apply`).  The ECall-marker arm never reaches this computation. -/
def opCost (cfg : Config) (pt : PageTable) : PendingOp → Nat
  | .PendingInst .ECall => 0
  | .PendingInst (.MemoryLoad addr _ _) =>
    cyclesNeeded cfg pt (addr / cfg.pageSize) .Load + 1
  | .PendingInst (.MemoryStore addr _) =>
    cyclesNeeded cfg pt (addr / cfg.pageSize) .Load
      + cyclesNeeded cfg pt (addr / cfg.pageSize) .Store + 1
  | .PendingInst (.RegisterStore _ _ _ cycles) => cycles
  | .PendingECall e =>
    let ps := calcEcallPages cfg pt e
    ps.1.length * cfg.cyclesPerFullPage + ps.2.length * cfg.cyclesPerFullPage
      + e.cycles

/-- Apply the ordered register writes of a Pending ECall, emitting a
`RegisterSet` trace event per write. -/
def applyRegWrites : Executor → List (Nat × Nat) → Executor
  | s, [] => s
  | s, rv :: rest =>
    applyRegWrites
      (Executor.traceEv { s with regs := s.regs.set rv.1 rv.2 }
        (.RegisterSet rv.1 rv.2)) rest

/-- Apply the ordered RAM writes of a Pending ECall, emitting a `MemorySet`
trace event per write. -/
def applyRamWrites : Executor → List (Nat × Nat) → Executor
  | s, [] => s
  | s, av :: rest =>
    applyRamWrites
      (Executor.traceEv { s with ram := storeWord s.ram av.1 av.2 }
        (.MemorySet av.1 av.2)) rest

/-- The commit phase of `Executor::apply`: emit `InstructionStart`, mark the
instruction-fetch page, bump `insn_cycles`, then commit the operation.  An
un-executed ECall marker reaching this phase is the source's
`panic!("Encountered un-executed ECall PendingOp in second apply phase")`,
modelled as `invariantViolation`. -/
def Executor.applyCommit (cfg : Config) (s : Executor) (op : PendingOp) :
    Except ExecErr (Executor × Option ExitCode) :=
  let s0 := Executor.traceEv s (.InstructionStart s.segment_cycle s.pc)
  let mpc := markAddr cfg s0.page_table s0.pc .Load
  let s1 := { s0 with read_cycles := s0.read_cycles + mpc.1,
                      page_table := mpc.2,
                      cur_segment := { s0.cur_segment with
                        insn_cycles := s0.cur_segment.insn_cycles + 1 } }
  match op with
  | .PendingInst .ECall => .error .invariantViolation
  | .PendingInst (.MemoryLoad addr val reg) =>
    let s2 := { s1 with segment_cycle := s1.segment_cycle + 1 }
    let ma := markAddr cfg s2.page_table addr .Load
    let s3 := { s2 with read_cycles := s2.read_cycles + ma.1, page_table := ma.2 }
    let s4 := { s3 with regs := s3.regs.set reg val }
    let s5 := { s4 with pc := s4.pc + 4 }
    .ok (Executor.traceEv s5 (.RegisterSet reg val), none)
  | .PendingInst (.MemoryStore addr val) =>
    let ms := markAddr cfg s1.page_table addr .Store
    let s2 := { s1 with page_table := ms.2 }
    let s3 :=
      if 0 < ms.1 then
        let s2w := { s2 with write_cycles := s2.write_cycles + ms.1 }
        let ml := markAddr cfg s2w.page_table addr .Load
        { s2w with read_cycles := s2w.read_cycles + ml.1, page_table := ml.2 }
      else s2
    let s4 := { s3 with segment_cycle := s3.segment_cycle + 1 }
    let s5 := { s4 with ram := storeWord s4.ram addr val }
    let s6 := { s5 with pc := s5.pc + 4 }
    .ok (Executor.traceEv s6 (.MemorySet addr val), none)
  | .PendingInst (.RegisterStore reg val new_pc cycles) =>
    let s2 := { s1 with segment_cycle := s1.segment_cycle + cycles }
    let s3 := if reg ≠ 0 then { s2 with regs := s2.regs.set reg val } else s2
    let s4 := { s3 with pc := new_pc }
    .ok (Executor.traceEv s4 (.RegisterSet reg val), none)
  | .PendingECall e =>
    let ps := calcEcallPages cfg s1.page_table e
    let s2 := { s1 with segment_cycle := s1.segment_cycle + e.cycles }
    let ml := markList cfg s2.page_table ps.1 .Load
    let s3 := { s2 with read_cycles := s2.read_cycles + ml.1, page_table := ml.2 }
    let ms := markList cfg s3.page_table ps.2 .Store
    let s4 := { s3 with write_cycles := s3.write_cycles + ms.1, page_table := ms.2 }
    let s5 := applyRegWrites s4 e.reg_writes
    let s6 := applyRamWrites s5 e.ram_writes
    let s7 := { s6 with cur_segment := { s6.cur_segment with
      syscalls := s6.cur_segment.syscalls ++ e.syscall.toList } }
    let s8 := { s7 with pc := s7.pc + 4 }
    .ok (s8, e.exit_code)

/-- `Executor::apply`.  The ECall marker invokes the syscall layer (the `ec`
oracle) immediately, stores the resulting Pending ECall and returns without
estimating.  Every other operation is estimated against
`segment_cycles_remaining()` and either grows the segment / requests a split
(`handle_out_of_cycles`) or commits.  Note that in the out-of-cycles path the
operation, which the caller `step` has taken out of the pending slot, is
dropped: nothing stores it back. -/
def Executor.apply (cfg : Config) (s : Executor) (op : PendingOp)
    (ec : PendingECall) : Except ExecErr (Executor × Option ExitCode) :=
  if s.pending_op.isSome then .error .invariantViolation
  else
    match op with
    | .PendingInst .ECall =>
      .ok ({ s with pending_op := some (.PendingECall ec) }, none)
    | _ =>
      match Executor.segmentCyclesRemaining s with
      | .error e => .error e
      | .ok remaining =>
        let needed := opCost cfg s.page_table op
          + cyclesNeeded cfg s.page_table (s.pc / cfg.pageSize) .Load
        if remaining ≤ needed then Executor.handleOutOfCycles cfg s
        else Executor.applyCommit cfg s op

/-- `Executor::step`, with the RV32IM stepper and the syscall layer supplied
as oracles: `dec` is what `exec_rv32im(pc)` would decode, `ec` what
`exec_ecall` would produce. -/
def Executor.stepF (cfg : Config) (s : Executor) (dec : PendingInst)
    (ec : PendingECall) : Except ExecErr (Executor × Option ExitCode) :=
  match s.pending_op with
  | some op => Executor.apply cfg { s with pending_op := none } op ec
  | none => Executor.apply cfg { s with pending_op := none } (.PendingInst dec) ec

/-- Whether applying this operation consumes the syscall oracle. -/
def usesEcallOracle : PendingOp → Bool
  | .PendingInst .ECall => true
  | _ => false

/-- A Pending ECall with no effect, used where the syscall oracle is not
consulted. -/
def dummyEcall : PendingECall :=
  { ram_writes := [], reg_writes := [], page_loads := [], syscall := none,
    exit_code := none, cycles := 0 }

/-- `Executor::step` driven by finite oracle scripts: `decs` feeds the
stepper, `ecs` feeds the syscall layer. -/
def Executor.stepD (cfg : Config) (s : Executor) (decs : List PendingInst)
    (ecs : List PendingECall) :
    Except ExecErr (Executor × List PendingInst × List PendingECall × Option ExitCode) :=
  match s.pending_op with
  | some op =>
    if usesEcallOracle op then
      match ecs with
      | [] => .error .oracleExhausted
      | e :: rest =>
        (Executor.apply cfg { s with pending_op := none } op e).map
          (fun r => (r.1, decs, rest, r.2))
    else
      (Executor.apply cfg { s with pending_op := none } op dummyEcall).map
        (fun r => (r.1, decs, ecs, r.2))
  | none =>
    match decs with
    | [] => .error .oracleExhausted
    | d :: drest =>
      if usesEcallOracle (.PendingInst d) then
        match ecs with
        | [] => .error .oracleExhausted
        | e :: rest =>
          (Executor.apply cfg s (.PendingInst d) e).map
            (fun r => (r.1, drest, rest, r.2))
      else
        (Executor.apply cfg s (.PendingInst d) dummyEcall).map
          (fun r => (r.1, drest, ecs, r.2))

/-- The loop body of `Executor::run_with_callback`: step; on an exit code,
split (break unless `SystemSplit`); check the session limit after every step
that did not break out of the loop.  `fuel` bounds the iteration count. -/
def Executor.runLoop (cfg : Config) :
    Nat → Executor → List PendingInst → List PendingECall → Except ExecErr Session
  | 0, _, _, _ => .error .outOfFuel
  | fuel + 1, s, decs, ecs =>
    match Executor.stepD cfg s decs ecs with
    | .error e => .error e
    | .ok (s', decs', ecs', oExit) =>
      match oExit with
      | none =>
        if cfg.sessionLimit < s'.prev_segment_cycles + s'.segment_cycle then
          .error .sessionLimitExceeded
        else Executor.runLoop cfg fuel s' decs' ecs'
      | some code =>
        match Executor.split cfg s' code with
        | .error e => .error e
        | .ok s'' =>
          match code with
          | .SystemSplit =>
            if cfg.sessionLimit < s''.prev_segment_cycles + s''.segment_cycle then
              .error .sessionLimitExceeded
            else Executor.runLoop cfg fuel s'' decs' ecs'
          | _ => .ok { segments := s''.segments, journal := [], exit_code := code }

/-- `Executor::new`: allocate RAM, copy the image in, load the register file
from the SYSTEM region and start the first segment. -/
def Executor.new (cfg : Config) (img : MemoryImage) (pc : Nat) : Executor :=
  let cur_segment : Segment :=
    { pre_image := img, post_image_id := 0, faults := { reads := [], writes := [] },
      syscalls := [], exit_code := .SystemSplit, split_insn := none,
      po2 := cfg.minCyclesPo2, index := 0, insn_cycles := 0 }
  let s : Executor :=
    { cur_segment := cur_segment
      segment_limit := 0
      segment_cycle := 0
      read_cycles := 0
      write_cycles := 0
      init_cycles := cfg.loaderInitCycles
      fini_cycles := cfg.loaderFiniCycles + SHA_CYCLES + cfg.zkCycles
      prev_segment_cycles := 0
      pc := pc
      regs := imageToRegs cfg img
      ram := imageToRam cfg img
      page_table := PageTable.clear
      pending_op := none
      segments := []
      trace := [] }
  Executor.startSegment cfg s

/-- A small concrete platform/environment used by concrete runs: 4-byte
pages, 16 bytes of memory, one-page Merkle overlay, `CYCLES_PER_FULL_PAGE = 1`,
loader init 10, loader fini 44 (so `fini_cycles = 44 + 72 + 0 = 116`),
segment-limit po2 10, ample session limit. -/
def cfg0 : Config :=
  { pageSize := 4
    memSize := 16
    systemStart := 0
    cyclesPerFullPage := 1
    ancestors := fun _ => []
    rootIdx := 0
    minCyclesPo2 := 13
    maxCyclesPo2 := 24
    envSegmentLimitPo2 := 10
    sessionLimit := 100000
    loaderInitCycles := 10
    loaderFiniCycles := 44
    zkCycles := 0
    hashFn := fun data pc => data.foldl (fun a b => a * 31 + b) 7 + pc }

/-- Like `cfg0` but with loader fini 30 (`fini_cycles = 102`), leaving the
first segment 13 spare cycles. -/
def cfg1 : Config := { cfg0 with loaderFiniCycles := 30 }

/-- An all-zero 16-byte memory image. -/
def img0 : MemoryImage := { data := List.replicate 16 0, pc := 0, root := 0 }

/-- A Pending ECall that halts immediately: one base cycle, no writes. -/
def haltEcall : PendingECall :=
  { ram_writes := [], reg_writes := [], page_loads := [], syscall := none,
    exit_code := some (.Halted 0), cycles := 1 }

/-- A Pending ECall whose base cost (1000 cycles) exceeds any small segment. -/
def bigEcall : PendingECall :=
  { ram_writes := [], reg_writes := [], page_loads := [], syscall := none,
    exit_code := none, cycles := 1000 }

/-- States of the Executor reachable by some run: the freshly constructed
state, the result of a step that did not exit, and the result of a step whose
exit code was fed to `split` (the loop continues after a `SystemSplit` and
stops otherwise; either way the post-split state is observable).  The decode
and syscall oracles are universally quantified, covering every possible
stepper and syscall layer. -/
inductive Reach (cfg : Config) : Executor → Prop
  | init (img : MemoryImage) (pc : Nat) : Reach cfg (Executor.new cfg img pc)
  | step (s : Executor) (dec : PendingInst) (ec : PendingECall) (s' : Executor)
      (h : Reach cfg s) (hs : Executor.stepF cfg s dec ec = .ok (s', none)) :
      Reach cfg s'
  | stepSplit (s : Executor) (dec : PendingInst) (ec : PendingECall)
      (s' s'' : Executor) (code : ExitCode) (h : Reach cfg s)
      (hs : Executor.stepF cfg s dec ec = .ok (s', some code))
      (hsp : Executor.split cfg s' code = .ok s'') : Reach cfg s''



/-- Run one `step` and keep the resulting state (keeping the old state on an
error); used to name intermediate states of concrete runs. -/
def afterStep (cfg : Config) (s : Executor) (dec : PendingInst)
    (ec : PendingECall) : Executor :=
  match Executor.stepF cfg s dec ec with
  | .ok r => r.1
  | .error _ => s

/-- A Pending ECall with one register write, one RAM write, a syscall record
and a halting exit code. -/
def wEcall : PendingECall :=
  { ram_writes := [(8, 9)], reg_writes := [(10, 7)], page_loads := [],
    syscall := some { to_guest := [], regs := (0, 0) },
    exit_code := some (.Halted 0), cycles := 1 }

/-- `cfg1` with a session limit of 50 cycles: small enough that the halting
segment overruns it, large enough that the intermediate check passes. -/
def c10cfg : Config := { cfg1 with sessionLimit := 50 }

/-- `cfg1` with a session limit of 5 cycles: even the first step overruns. -/
def c10wcfg : Config := { cfg1 with sessionLimit := 5 }

/-- State of the `c10cfg` run after its first step (the ECall marker). -/
def c10s1 : Executor := afterStep c10cfg (Executor.new c10cfg img0 0) .ECall haltEcall

/-- State of the `c10cfg` run after its second step (the committed halt). -/
def c10s2 : Executor := afterStep c10cfg c10s1 .ECall haltEcall

/-! ### Page-table lemmas -/

theorem le_two_pow_log2_ceil (n : Nat) : n ≤ 2 ^ log2_ceil n := by
  unfold log2_ceil
  split
  next k h => simpa using List.find?_some h
  next h =>
    exfalso
    have hmem : n ∈ List.range (n + 1) := List.mem_range.mpr (Nat.lt_succ_self n)
    have hn := List.find?_eq_none.mp h n hmem
    simp at hn
    exact Nat.lt_asymm (Nat.lt_two_pow n) hn

theorem markPage_pos (cfg : Config) {pt : PageTable} {p : Nat} {d : Dir}
    (h : p ∈ ptSet pt d) : markPage cfg pt p d = (0, pt) := by
  unfold markPage; rw [if_pos h]

theorem markPage_neg (cfg : Config) {pt : PageTable} {p : Nat} {d : Dir}
    (h : p ∉ ptSet pt d) :
    markPage cfg pt p d = (cfg.cyclesPerFullPage, ptInsert pt d p) := by
  unfold markPage; rw [if_neg h]

theorem markList_cons (cfg : Config) (pt : PageTable) (p : Nat) (rest : List Nat)
    (d : Dir) :
    markList cfg pt (p :: rest) d =
      ((markPage cfg pt p d).1 + (markList cfg (markPage cfg pt p d).2 rest d).1,
        (markList cfg (markPage cfg pt p d).2 rest d).2) := rfl

theorem ptSet_insert_self (pt : PageTable) (d : Dir) (p : Nat) :
    ptSet (ptInsert pt d p) d = p :: ptSet pt d := by
  cases d <;> rfl

theorem markList_loaded_of_store (cfg : Config) :
    ∀ (l : List Nat) (pt : PageTable), ((markList cfg pt l .Store).2).loaded = pt.loaded := by
  intro l
  induction l with
  | nil => intro pt; rfl
  | cons p rest ih =>
    intro pt
    rw [markList_cons]
    by_cases hp : p ∈ ptSet pt .Store
    · rw [markPage_pos cfg hp]; exact ih pt
    · rw [markPage_neg cfg hp]; rw [ih]; rfl

theorem markList_dirty_of_load (cfg : Config) :
    ∀ (l : List Nat) (pt : PageTable), ((markList cfg pt l .Load).2).dirty = pt.dirty := by
  intro l
  induction l with
  | nil => intro pt; rfl
  | cons p rest ih =>
    intro pt
    rw [markList_cons]
    by_cases hp : p ∈ ptSet pt .Load
    · rw [markPage_pos cfg hp]; exact ih pt
    · rw [markPage_neg cfg hp]; rw [ih]; rfl

theorem markList_set_mono (cfg : Config) (d : Dir) :
    ∀ (l : List Nat) (pt : PageTable) (q : Nat), q ∈ ptSet pt d →
      q ∈ ptSet (markList cfg pt l d).2 d := by
  intro l
  induction l with
  | nil => intro pt q hq; exact hq
  | cons p rest ih =>
    intro pt q hq
    rw [markList_cons]
    by_cases hp : p ∈ ptSet pt d
    · rw [markPage_pos cfg hp]; exact ih pt q hq
    · rw [markPage_neg cfg hp]
      exact ih _ q (by rw [ptSet_insert_self]; exact List.mem_cons_of_mem _ hq)

theorem markList_cost (cfg : Config) (d : Dir) :
    ∀ (l : List Nat) (pt : PageTable), l.Nodup →
      (markList cfg pt l d).1 =
        cfg.cyclesPerFullPage * (l.filter (fun q => decide (q ∉ ptSet pt d))).length := by
  intro l
  induction l with
  | nil => intro pt _; simp [markList]
  | cons p rest ih =>
    intro pt hnd
    rw [List.nodup_cons] at hnd
    rw [markList_cons, List.filter_cons]
    by_cases hp : p ∈ ptSet pt d
    · rw [markPage_pos cfg hp]
      have hb : (decide (p ∉ ptSet pt d)) = false := by simp [hp]
      rw [hb]
      simp only [Bool.false_eq_true, if_false]
      simpa using ih pt hnd.2
    · rw [markPage_neg cfg hp]
      have hb : (decide (p ∉ ptSet pt d)) = true := by simp [hp]
      rw [hb]
      simp only [if_true, List.length_cons]
      rw [ih (ptInsert pt d p) hnd.2]
      have hfeq : rest.filter (fun q => decide (q ∉ ptSet (ptInsert pt d p) d))
          = rest.filter (fun q => decide (q ∉ ptSet pt d)) := by
        apply List.filter_congr
        intro q hq
        have hqp : q ≠ p := fun hEq => hnd.1 (hEq ▸ hq)
        simp [ptSet_insert_self, hqp]
      rw [hfeq]
      ring

theorem markList_cost_le (cfg : Config) (d : Dir) :
    ∀ (l : List Nat) (pt : PageTable),
      (markList cfg pt l d).1 ≤ cfg.cyclesPerFullPage * l.length := by
  intro l
  induction l with
  | nil => intro pt; simp [markList]
  | cons p rest ih =>
    intro pt
    rw [markList_cons, List.length_cons, Nat.mul_succ]
    by_cases hp : p ∈ ptSet pt d
    · rw [markPage_pos cfg hp]
      simpa using Nat.le_add_right_of_le (ih pt)
    · rw [markPage_neg cfg hp]
      have := ih (ptInsert pt d p)
      simp only []
      omega

theorem markList_cost_anti (cfg : Config) (d : Dir) :
    ∀ (l : List Nat) (pt pt' : PageTable),
      (∀ q, q ∈ ptSet pt d → q ∈ ptSet pt' d) →
      (markList cfg pt' l d).1 ≤ (markList cfg pt l d).1 := by
  intro l
  induction l with
  | nil => intro pt pt' _; exact Nat.le_refl _
  | cons p rest ih =>
    intro pt pt' hsub
    rw [markList_cons, markList_cons]
    by_cases hp : p ∈ ptSet pt d
    · have hp' : p ∈ ptSet pt' d := hsub _ hp
      rw [markPage_pos cfg hp, markPage_pos cfg hp']
      simpa using ih pt pt' hsub
    · by_cases hp' : p ∈ ptSet pt' d
      · rw [markPage_neg cfg hp, markPage_pos cfg hp']
        simp only [Nat.zero_add]
        have hsub2 : ∀ q, q ∈ ptSet (ptInsert pt d p) d → q ∈ ptSet pt' d := by
          intro q hq
          rw [ptSet_insert_self] at hq
          rcases List.mem_cons.mp hq with hEq | hMem
          · exact hEq ▸ hp'
          · exact hsub _ hMem
        have := ih _ _ hsub2
        omega
      · rw [markPage_neg cfg hp, markPage_neg cfg hp']
        apply Nat.add_le_add_left
        apply ih
        intro q hq
        rw [ptSet_insert_self] at hq ⊢
        rcases List.mem_cons.mp hq with hEq | hMem
        · exact hEq ▸ List.mem_cons_self _ _
        · exact List.mem_cons_of_mem _ (hsub _ hMem)

theorem markList_store_congr (cfg : Config) :
    ∀ (l : List Nat) (pt pt' : PageTable), pt.dirty = pt'.dirty →
      (markList cfg pt l .Store).1 = (markList cfg pt' l .Store).1 := by
  intro l
  induction l with
  | nil => intro pt pt' _; rfl
  | cons p rest ih =>
    intro pt pt' h
    rw [markList_cons, markList_cons]
    by_cases hp : p ∈ ptSet pt .Store
    · have hp' : p ∈ ptSet pt' .Store := by
        show p ∈ pt'.dirty; rw [← h]; exact hp
      rw [markPage_pos cfg hp, markPage_pos cfg hp']
      simpa using ih pt pt' h
    · have hp' : p ∉ ptSet pt' .Store := by
        show p ∉ pt'.dirty; rw [← h]; exact hp
      rw [markPage_neg cfg hp, markPage_neg cfg hp']
      have h2 : (ptInsert pt .Store p).dirty = (ptInsert pt' .Store p).dirty := by
        show p :: pt.dirty = p :: pt'.dirty; rw [h]
      simpa using ih _ _ h2

theorem markAddr_cost (cfg : Config) (pt : PageTable) (addr : Nat) (d : Dir) :
    (markAddr cfg pt addr d).1 = cyclesNeeded cfg pt (addr / cfg.pageSize) d := by
  unfold markAddr cyclesNeeded pagesNeeded
  exact markList_cost cfg d _ pt (List.nodup_dedup _)

theorem markAddr_cost_anti (cfg : Config) (d : Dir) (addr : Nat) {pt pt' : PageTable}
    (h : ∀ q, q ∈ ptSet pt d → q ∈ ptSet pt' d) :
    (markAddr cfg pt' addr d).1 ≤ (markAddr cfg pt addr d).1 := by
  unfold markAddr
  exact markList_cost_anti cfg d _ pt pt' h

theorem markAddr_store_congr (cfg : Config) (addr : Nat) {pt pt' : PageTable}
    (h : pt.dirty = pt'.dirty) :
    (markAddr cfg pt addr .Store).1 = (markAddr cfg pt' addr .Store).1 := by
  unfold markAddr
  exact markList_store_congr cfg _ pt pt' h

theorem length_le_of_nodup_subset {l1 l2 : List Nat} (h1 : l1.Nodup) (h2 : l2.Nodup)
    (hsub : l1 ⊆ l2) : l1.length ≤ l2.length := by
  rw [← List.toFinset_card_of_nodup h1, ← List.toFinset_card_of_nodup h2]
  apply Finset.card_le_card
  intro x hx
  rw [List.mem_toFinset] at hx ⊢
  exact hsub hx

theorem calcEcall_loads_nodup (cfg : Config) (pt : PageTable) (e : PendingECall) :
    ((calcEcallPages cfg pt e).1).Nodup := List.nodup_dedup _

theorem calcEcall_loads_subset (cfg : Config) (e : PendingECall) {pt pt' : PageTable}
    (h : ∀ q, q ∈ pt.loaded → q ∈ pt'.loaded) :
    (calcEcallPages cfg pt' e).1 ⊆ (calcEcallPages cfg pt e).1 := by
  intro q hq
  unfold calcEcallPages at hq ⊢
  simp only [List.mem_dedup, List.mem_flatMap] at hq ⊢
  obtain ⟨p, hp, hqp⟩ := hq
  refine ⟨p, hp, ?_⟩
  unfold pagesNeeded at hqp ⊢
  rw [List.mem_filter] at hqp ⊢
  refine ⟨hqp.1, ?_⟩
  have h2 := hqp.2
  simp only [decide_eq_true_eq] at h2 ⊢
  intro hmem
  exact h2 (h _ hmem)

theorem calcEcall_stores_congr (cfg : Config) (e : PendingECall) {pt pt' : PageTable}
    (h : pt.dirty = pt'.dirty) :
    (calcEcallPages cfg pt e).2 = (calcEcallPages cfg pt' e).2 := by
  unfold calcEcallPages
  simp only
  have hfun : (fun p => pagesNeeded cfg pt p .Store)
      = fun p => pagesNeeded cfg pt' p .Store := by
    funext p
    unfold pagesNeeded
    have : ptSet pt .Store = ptSet pt' .Store := h
    rw [this]
  rw [hfun]

theorem applyRegWrites_eq : ∀ (l : List (Nat × Nat)) (s : Executor),
    applyRegWrites s l =
      { s with regs := l.foldl (fun r rv => r.set rv.1 rv.2) s.regs,
               trace := s.trace ++ l.map (fun rv => TraceEvent.RegisterSet rv.1 rv.2) } := by
  intro l
  induction l with
  | nil => intro s; simp [applyRegWrites]
  | cons rv rest ih =>
    intro s
    show applyRegWrites
      (Executor.traceEv { s with regs := s.regs.set rv.1 rv.2 }
        (.RegisterSet rv.1 rv.2)) rest = _
    rw [ih]
    simp [Executor.traceEv]

theorem applyRamWrites_eq : ∀ (l : List (Nat × Nat)) (s : Executor),
    applyRamWrites s l =
      { s with ram := l.foldl (fun m av => storeWord m av.1 av.2) s.ram,
               trace := s.trace ++ l.map (fun av => TraceEvent.MemorySet av.1 av.2) } := by
  intro l
  induction l with
  | nil => intro s; simp [applyRamWrites]
  | cons av rest ih =>
    intro s
    show applyRamWrites
      (Executor.traceEv { s with ram := storeWord s.ram av.1 av.2 }
        (.MemorySet av.1 av.2)) rest = _
    rw [ih]
    simp [Executor.traceEv]

theorem markAddr_set_mono (cfg : Config) (d : Dir) (a : Nat) (pt : PageTable) :
    ∀ q, q ∈ ptSet pt d → q ∈ ptSet (markAddr cfg pt a d).2 d := by
  intro q hq
  exact markList_set_mono cfg d _ pt q hq

theorem markAddr_dirty_of_load (cfg : Config) (a : Nat) (pt : PageTable) :
    ((markAddr cfg pt a .Load).2).dirty = pt.dirty :=
  markList_dirty_of_load cfg _ pt

theorem markAddr_loaded_of_store (cfg : Config) (a : Nat) (pt : PageTable) :
    ((markAddr cfg pt a .Store).2).loaded = pt.loaded :=
  markList_loaded_of_store cfg _ pt

theorem applyCommit_budget (cfg : Config) (s : Executor) (op : PendingOp)
    (s' : Executor) (oc : Option ExitCode)
    (h : Executor.applyCommit cfg s op = .ok (s', oc)) :
    s'.cycSum ≤ s.cycSum + opCost cfg s.page_table op
        + cyclesNeeded cfg s.page_table (s.pc / cfg.pageSize) .Load
      ∧ s'.segment_limit = s.segment_limit
      ∧ s'.cur_segment.po2 = s.cur_segment.po2 := by
  cases op with
  | PendingECall e =>
    simp only [Executor.applyCommit, Executor.traceEv, applyRegWrites_eq,
      applyRamWrites_eq, Except.ok.injEq, Prod.mk.injEq] at h
    obtain ⟨hs', hoc⟩ := h
    subst hs'
    refine ⟨?_, rfl, rfl⟩
    simp only [Executor.cycSum, opCost]
    have hpc := markAddr_cost cfg s.page_table s.pc .Load
    have hdirty : ((markAddr cfg s.page_table s.pc .Load).2).dirty
        = s.page_table.dirty := markAddr_dirty_of_load cfg s.pc s.page_table
    have hLsub : (calcEcallPages cfg (markAddr cfg s.page_table s.pc .Load).2 e).1
        ⊆ (calcEcallPages cfg s.page_table e).1 :=
      calcEcall_loads_subset cfg e
        (markAddr_set_mono cfg .Load s.pc s.page_table)
    have hLlen : ((calcEcallPages cfg (markAddr cfg s.page_table s.pc .Load).2 e).1).length
        ≤ ((calcEcallPages cfg s.page_table e).1).length :=
      length_le_of_nodup_subset (calcEcall_loads_nodup cfg _ e)
        (calcEcall_loads_nodup cfg _ e) hLsub
    have hSeq : (calcEcallPages cfg s.page_table e).2
        = (calcEcallPages cfg (markAddr cfg s.page_table s.pc .Load).2 e).2 :=
      calcEcall_stores_congr cfg e hdirty.symm
    have hSlen : ((calcEcallPages cfg (markAddr cfg s.page_table s.pc .Load).2 e).2).length
        = ((calcEcallPages cfg s.page_table e).2).length :=
      (congrArg List.length hSeq).symm
    have hml := markList_cost_le cfg .Load
      ((calcEcallPages cfg (markAddr cfg s.page_table s.pc .Load).2 e).1)
      (markAddr cfg s.page_table s.pc .Load).2
    have hms := markList_cost_le cfg .Store
      ((calcEcallPages cfg (markAddr cfg s.page_table s.pc .Load).2 e).2)
      (markList cfg (markAddr cfg s.page_table s.pc .Load).2
        ((calcEcallPages cfg (markAddr cfg s.page_table s.pc .Load).2 e).1) .Load).2
    have hmul1 : cfg.cyclesPerFullPage
          * ((calcEcallPages cfg (markAddr cfg s.page_table s.pc .Load).2 e).1).length
        ≤ cfg.cyclesPerFullPage * ((calcEcallPages cfg s.page_table e).1).length :=
      Nat.mul_le_mul_left _ hLlen
    have hmul2 : cfg.cyclesPerFullPage
          * ((calcEcallPages cfg (markAddr cfg s.page_table s.pc .Load).2 e).2).length
        = cfg.cyclesPerFullPage * ((calcEcallPages cfg s.page_table e).2).length := by
      rw [hSlen]
    have hopc1 : ((calcEcallPages cfg s.page_table e).1).length * cfg.cyclesPerFullPage
        = cfg.cyclesPerFullPage * ((calcEcallPages cfg s.page_table e).1).length :=
      Nat.mul_comm _ _
    have hopc2 : ((calcEcallPages cfg s.page_table e).2).length * cfg.cyclesPerFullPage
        = cfg.cyclesPerFullPage * ((calcEcallPages cfg s.page_table e).2).length :=
      Nat.mul_comm _ _
    omega
  | PendingInst inst =>
    cases inst with
    | ECall => simp [Executor.applyCommit] at h
    | MemoryLoad addr val reg =>
      simp only [Executor.applyCommit, Executor.traceEv, Except.ok.injEq,
        Prod.mk.injEq] at h
      obtain ⟨hs', hoc⟩ := h
      subst hs'
      refine ⟨?_, rfl, rfl⟩
      simp only [Executor.cycSum, opCost]
      have hpc := markAddr_cost cfg s.page_table s.pc .Load
      have ha : (markAddr cfg (markAddr cfg s.page_table s.pc .Load).2 addr .Load).1
          ≤ cyclesNeeded cfg s.page_table (addr / cfg.pageSize) .Load := by
        calc (markAddr cfg (markAddr cfg s.page_table s.pc .Load).2 addr .Load).1
            ≤ (markAddr cfg s.page_table addr .Load).1 :=
              markAddr_cost_anti cfg .Load addr
                (markAddr_set_mono cfg .Load s.pc s.page_table)
          _ = cyclesNeeded cfg s.page_table (addr / cfg.pageSize) .Load :=
              markAddr_cost cfg s.page_table addr .Load
      omega
    | MemoryStore addr val =>
      simp only [Executor.applyCommit, Executor.traceEv, Except.ok.injEq,
        Prod.mk.injEq] at h
      obtain ⟨hs', hoc⟩ := h
      subst hs'
      have hpc := markAddr_cost cfg s.page_table s.pc .Load
      have hdirty : ((markAddr cfg s.page_table s.pc .Load).2).dirty
          = s.page_table.dirty := markAddr_dirty_of_load cfg s.pc s.page_table
      have hws : (markAddr cfg (markAddr cfg s.page_table s.pc .Load).2 addr .Store).1
          = cyclesNeeded cfg s.page_table (addr / cfg.pageSize) .Store := by
        rw [markAddr_store_congr cfg addr hdirty]
        exact markAddr_cost cfg s.page_table addr .Store
      have hrl : (markAddr cfg
            (markAddr cfg (markAddr cfg s.page_table s.pc .Load).2 addr .Store).2
            addr .Load).1
          ≤ cyclesNeeded cfg s.page_table (addr / cfg.pageSize) .Load := by
        have hsub : ∀ q, q ∈ ptSet s.page_table .Load →
            q ∈ ptSet (markAddr cfg (markAddr cfg s.page_table s.pc .Load).2
              addr .Store).2 .Load := by
          intro q hq
          have h1 := markAddr_set_mono cfg .Load s.pc s.page_table q hq
          show q ∈ ((markAddr cfg (markAddr cfg s.page_table s.pc .Load).2
            addr .Store).2).loaded
          rw [markAddr_loaded_of_store]
          exact h1
        calc (markAddr cfg
              (markAddr cfg (markAddr cfg s.page_table s.pc .Load).2 addr .Store).2
              addr .Load).1
            ≤ (markAddr cfg s.page_table addr .Load).1 :=
              markAddr_cost_anti cfg .Load addr hsub
          _ = cyclesNeeded cfg s.page_table (addr / cfg.pageSize) .Load :=
              markAddr_cost cfg s.page_table addr .Load
      refine ⟨?_, ?_, ?_⟩
      · simp only [Executor.cycSum, opCost]
        split <;> (dsimp only; omega)
      · split <;> rfl
      · split <;> rfl
    | RegisterStore reg val new_pc cycles =>
      simp only [Executor.applyCommit, Executor.traceEv, Except.ok.injEq,
        Prod.mk.injEq] at h
      obtain ⟨hs', hoc⟩ := h
      subst hs'
      have hpc := markAddr_cost cfg s.page_table s.pc .Load
      refine ⟨?_, ?_, ?_⟩
      · simp only [Executor.cycSum, opCost]
        split <;> (dsimp only; omega)
      · split <;> rfl
      · split <;> rfl

theorem segmentCyclesRemaining_ok {s : Executor} {r : Nat}
    (h : Executor.segmentCyclesRemaining s = .ok r) :
    s.cycSum + 1 ≤ s.segment_limit ∧ r + s.cycSum + 1 = s.segment_limit := by
  unfold Executor.segmentCyclesRemaining at h
  split at h
  · next hc =>
    rw [Except.ok.injEq] at h
    subst h
    refine ⟨hc, ?_⟩
    simp only [Executor.cycSum] at hc ⊢
    omega
  · exact absurd h (by simp)

theorem startSegment_budget (cfg : Config) (s : Executor) :
    (Executor.startSegment cfg s).cycSum ≤ (Executor.startSegment cfg s).segment_limit
      ∧ (Executor.startSegment cfg s).segment_limit
        = 2 ^ (Executor.startSegment cfg s).cur_segment.po2 := by
  unfold Executor.startSegment
  refine ⟨?_, rfl⟩
  simp only [Executor.cycSum]
  exact le_two_pow_log2_ceil _

theorem splitOk_cycSum (cfg : Config) (s : Executor) (code : ExitCode) :
    (Executor.splitOk cfg s code).cycSum
      = (Executor.startSegment cfg (Executor.splitPrep cfg s code)).cycSum := by
  unfold Executor.splitOk Executor.cycSum
  dsimp only

theorem splitOk_limit (cfg : Config) (s : Executor) (code : ExitCode) :
    (Executor.splitOk cfg s code).segment_limit
      = (Executor.startSegment cfg (Executor.splitPrep cfg s code)).segment_limit := by
  unfold Executor.splitOk
  rfl

theorem splitOk_po2 (cfg : Config) (s : Executor) (code : ExitCode) :
    (Executor.splitOk cfg s code).cur_segment.po2
      = (Executor.startSegment cfg (Executor.splitPrep cfg s code)).cur_segment.po2 := by
  unfold Executor.splitOk
  rfl

theorem splitOk_budget (cfg : Config) (s : Executor) (code : ExitCode) :
    (Executor.splitOk cfg s code).cycSum ≤ (Executor.splitOk cfg s code).segment_limit
      ∧ (Executor.splitOk cfg s code).segment_limit
        = 2 ^ (Executor.splitOk cfg s code).cur_segment.po2 := by
  rw [splitOk_cycSum, splitOk_limit, splitOk_po2]
  exact startSegment_budget cfg _

theorem split_ok_cases (cfg : Config) (s : Executor) (code : ExitCode) (s' : Executor)
    (h : Executor.split cfg s code = .ok s') :
    s' = Executor.splitOk cfg s code ∧ code ≠ .SessionLimit := by
  cases code with
  | SessionLimit => exact absurd h (by simp [Executor.split])
  | Halted v =>
    simp only [Executor.split, Except.ok.injEq] at h
    exact ⟨h.symm, by simp⟩
  | Paused v =>
    simp only [Executor.split, Except.ok.injEq] at h
    exact ⟨h.symm, by simp⟩
  | SystemSplit =>
    simp only [Executor.split, Except.ok.injEq] at h
    exact ⟨h.symm, by simp⟩

theorem split_budget (cfg : Config) (s : Executor) (code : ExitCode) (s' : Executor)
    (h : Executor.split cfg s code = .ok s') :
    s'.cycSum ≤ s'.segment_limit
      ∧ s'.segment_limit = 2 ^ s'.cur_segment.po2 := by
  obtain ⟨rfl, -⟩ := split_ok_cases cfg s code s' h
  exact splitOk_budget cfg s code

theorem apply_budget (cfg : Config) (s : Executor) (op : PendingOp) (ec : PendingECall)
    (s' : Executor) (oc : Option ExitCode)
    (h : Executor.apply cfg s op ec = .ok (s', oc))
    (hlim : s.segment_limit = 2 ^ s.cur_segment.po2)
    (hb : s.cycSum ≤ s.segment_limit) :
    s'.cycSum ≤ s'.segment_limit ∧ s'.segment_limit = 2 ^ s'.cur_segment.po2 := by
  unfold Executor.apply at h
  split at h
  · exact absurd h (by simp)
  · split at h
    · -- ECall marker: pending op stored, everything else unchanged
      rw [Except.ok.injEq, Prod.mk.injEq] at h
      obtain ⟨hs', _⟩ := h
      subst hs'
      exact ⟨hb, hlim⟩
    · next op hne =>
      split at h
      · exact absurd h (by simp)
      · next r hr =>
        obtain ⟨hb1, hr1⟩ := segmentCyclesRemaining_ok hr
        dsimp only at h
        split at h
        · -- handle_out_of_cycles
          unfold Executor.handleOutOfCycles at h
          split at h
          · dsimp only at h
            split at h
            · rw [Except.ok.injEq, Prod.mk.injEq] at h
              obtain ⟨hs', _⟩ := h
              subst hs'
              constructor
              · refine Nat.le_trans hb ?_
                rw [hlim]
                exact Nat.pow_le_pow_right (by omega) (Nat.le_succ _)
              · rfl
            · exact absurd h (by simp)
          · rw [Except.ok.injEq, Prod.mk.injEq] at h
            obtain ⟨hs', _⟩ := h
            subst hs'
            exact ⟨hb, hlim⟩
        · next hfits =>
          obtain ⟨hsum, hslim, hpo2⟩ := applyCommit_budget cfg s _ s' oc h
          constructor
          · rw [hslim]
            omega
          · rw [hslim, hpo2, hlim]

theorem reach_budget (cfg : Config) (s : Executor) (h : Reach cfg s) :
    s.cycSum ≤ s.segment_limit ∧ s.segment_limit = 2 ^ s.cur_segment.po2 := by
  induction h with
  | init img pc =>
    unfold Executor.new
    exact startSegment_budget cfg _
  | step s dec ec s' hs hstep ih =>
    unfold Executor.stepF at hstep
    split at hstep
    · exact apply_budget cfg _ _ ec s' none hstep ih.2 ih.1
    · exact apply_budget cfg _ _ ec s' none hstep ih.2 ih.1
  | stepSplit s dec ec s' s'' code hs hstep hsplit ih =>
    exact split_budget cfg s' code s'' hsplit

theorem handleOutOfCycles_no_cu (cfg : Config) (s : Executor) :
    Executor.handleOutOfCycles cfg s ≠ .error .cycleUnderflow := by
  unfold Executor.handleOutOfCycles
  split
  · dsimp only
    split <;> simp
  · simp

theorem applyCommit_no_cu (cfg : Config) (s : Executor) (op : PendingOp) :
    Executor.applyCommit cfg s op ≠ .error .cycleUnderflow := by
  cases op with
  | PendingECall e => simp [Executor.applyCommit]
  | PendingInst inst => cases inst <;> simp [Executor.applyCommit]

theorem apply_no_cu (cfg : Config) (s : Executor) (op : PendingOp) (ec : PendingECall)
    (hb : s.cycSum + 1 ≤ s.segment_limit) :
    Executor.apply cfg s op ec ≠ .error .cycleUnderflow := by
  unfold Executor.apply
  split
  · simp
  · split
    · simp
    · rw [show Executor.segmentCyclesRemaining s
          = .ok (s.segment_limit - s.segment_cycle - s.read_cycles - s.write_cycles
            - s.fini_cycles - 1) from by
        unfold Executor.segmentCyclesRemaining; rw [if_pos hb]]
      dsimp only
      split
      · exact handleOutOfCycles_no_cu cfg s
      · exact applyCommit_no_cu cfg s _

theorem apply_strict (cfg : Config) (s : Executor) (op : PendingOp) (ec : PendingECall)
    (s' : Executor) (oc : Option ExitCode)
    (h : Executor.apply cfg s op ec = .ok (s', oc))
    (hlim : s.segment_limit = 2 ^ s.cur_segment.po2)
    (hb : s.cycSum + 1 ≤ s.segment_limit) :
    s'.cycSum + 1 ≤ s'.segment_limit := by
  unfold Executor.apply at h
  split at h
  · exact absurd h (by simp)
  · split at h
    · rw [Except.ok.injEq, Prod.mk.injEq] at h
      obtain ⟨hs', _⟩ := h
      subst hs'
      exact hb
    · next op hne =>
      split at h
      · exact absurd h (by simp)
      · next r hr =>
        obtain ⟨hb1, hr1⟩ := segmentCyclesRemaining_ok hr
        dsimp only at h
        split at h
        · unfold Executor.handleOutOfCycles at h
          split at h
          · dsimp only at h
            split at h
            · rw [Except.ok.injEq, Prod.mk.injEq] at h
              obtain ⟨hs', _⟩ := h
              subst hs'
              refine Nat.le_trans hb ?_
              rw [hlim]
              exact Nat.pow_le_pow_right (by omega) (Nat.le_succ _)
            · exact absurd h (by simp)
          · rw [Except.ok.injEq, Prod.mk.injEq] at h
            obtain ⟨hs', _⟩ := h
            subst hs'
            exact hb
        · next hfits =>
          obtain ⟨hsum, hslim, hpo2⟩ := applyCommit_budget cfg s _ s' oc h
          rw [hslim]
          omega

theorem applyCommit_seg (cfg : Config) (s : Executor) (op : PendingOp)
    (s' : Executor) (oc : Option ExitCode)
    (h : Executor.applyCommit cfg s op = .ok (s', oc)) :
    s'.segments = s.segments
      ∧ s'.cur_segment.pre_image = s.cur_segment.pre_image := by
  cases op with
  | PendingECall e =>
    simp only [Executor.applyCommit, Executor.traceEv, applyRegWrites_eq,
      applyRamWrites_eq, Except.ok.injEq, Prod.mk.injEq] at h
    obtain ⟨hs', _⟩ := h
    subst hs'
    exact ⟨rfl, rfl⟩
  | PendingInst inst =>
    cases inst with
    | ECall => simp [Executor.applyCommit] at h
    | MemoryLoad addr val reg =>
      simp only [Executor.applyCommit, Executor.traceEv, Except.ok.injEq,
        Prod.mk.injEq] at h
      obtain ⟨hs', _⟩ := h
      subst hs'
      exact ⟨rfl, rfl⟩
    | MemoryStore addr val =>
      simp only [Executor.applyCommit, Executor.traceEv, Except.ok.injEq,
        Prod.mk.injEq] at h
      obtain ⟨hs', _⟩ := h
      subst hs'
      constructor <;> (split <;> rfl)
    | RegisterStore reg val new_pc cycles =>
      simp only [Executor.applyCommit, Executor.traceEv, Except.ok.injEq,
        Prod.mk.injEq] at h
      obtain ⟨hs', _⟩ := h
      subst hs'
      constructor <;> (split <;> rfl)

theorem apply_seg (cfg : Config) (s : Executor) (op : PendingOp) (ec : PendingECall)
    (s' : Executor) (oc : Option ExitCode)
    (h : Executor.apply cfg s op ec = .ok (s', oc)) :
    s'.segments = s.segments
      ∧ s'.cur_segment.pre_image = s.cur_segment.pre_image := by
  unfold Executor.apply at h
  split at h
  · exact absurd h (by simp)
  · split at h
    · rw [Except.ok.injEq, Prod.mk.injEq] at h
      obtain ⟨hs', _⟩ := h
      subst hs'
      exact ⟨rfl, rfl⟩
    · split at h
      · exact absurd h (by simp)
      · dsimp only at h
        split at h
        · unfold Executor.handleOutOfCycles at h
          split at h
          · dsimp only at h
            split at h
            · rw [Except.ok.injEq, Prod.mk.injEq] at h
              obtain ⟨hs', _⟩ := h
              subst hs'
              exact ⟨rfl, rfl⟩
            · exact absurd h (by simp)
          · rw [Except.ok.injEq, Prod.mk.injEq] at h
            obtain ⟨hs', _⟩ := h
            subst hs'
            exact ⟨rfl, rfl⟩
        · exact applyCommit_seg cfg s _ s' oc h

theorem stepF_seg (cfg : Config) (s : Executor) (dec : PendingInst)
    (ec : PendingECall) (s' : Executor) (oc : Option ExitCode)
    (h : Executor.stepF cfg s dec ec = .ok (s', oc)) :
    s'.segments = s.segments
      ∧ s'.cur_segment.pre_image = s.cur_segment.pre_image := by
  unfold Executor.stepF at h
  split at h
  · obtain ⟨h1, h2⟩ := apply_seg cfg _ _ ec s' oc h
    exact ⟨h1, h2⟩
  · obtain ⟨h1, h2⟩ := apply_seg cfg _ _ ec s' oc h
    exact ⟨h1, h2⟩

/-- Adjacent-segment chaining relation: each emitted segment's
`post_image_id` equals the next segment's `pre_image.compute_id()`. -/
def chainOk (l : List Segment) : Prop :=
  List.Chain' (fun a b => a.post_image_id = computeId b.pre_image) l

/-- The last emitted segment (when one exists) chains to the current
segment's pre-image. -/
def linkOk (s : Executor) : Prop :=
  ∀ g ∈ s.segments.getLast?, g.post_image_id = computeId s.cur_segment.pre_image

theorem startSegment_segments (cfg : Config) (t : Executor) :
    (Executor.startSegment cfg t).segments = t.segments := by
  unfold Executor.startSegment
  rfl

theorem startSegment_pre (cfg : Config) (t : Executor) :
    (Executor.startSegment cfg t).cur_segment.pre_image
      = t.cur_segment.pre_image := by
  unfold Executor.startSegment
  rfl

theorem splitPrep_segments (cfg : Config) (s : Executor) (code : ExitCode) :
    (Executor.splitPrep cfg s code).segments = s.segments := by
  unfold Executor.splitPrep
  rfl

theorem splitPrep_pre (cfg : Config) (s : Executor) (code : ExitCode) :
    (Executor.splitPrep cfg s code).cur_segment.pre_image
      = hashPages cfg (regsToImage cfg
          (ramToImage cfg s.cur_segment.pre_image s.ram
            (calcPageFaults s.page_table).writes) s.regs s.pc) := by
  unfold Executor.splitPrep
  rfl

theorem splitOk_segments (cfg : Config) (s : Executor) (code : ExitCode) :
    (Executor.splitOk cfg s code).segments
      = s.segments ++ [Executor.splitOld cfg s code] := by
  unfold Executor.splitOk
  dsimp only
  rw [startSegment_segments, splitPrep_segments]

theorem splitOk_pre (cfg : Config) (s : Executor) (code : ExitCode) :
    (Executor.splitOk cfg s code).cur_segment.pre_image
      = hashPages cfg (regsToImage cfg
          (ramToImage cfg s.cur_segment.pre_image s.ram
            (calcPageFaults s.page_table).writes) s.regs s.pc) := by
  unfold Executor.splitOk
  dsimp only
  rw [startSegment_pre, splitPrep_pre]

theorem splitOld_post (cfg : Config) (s : Executor) (code : ExitCode) :
    (Executor.splitOld cfg s code).post_image_id
      = computeId (hashPages cfg (regsToImage cfg
          (ramToImage cfg s.cur_segment.pre_image s.ram
            (calcPageFaults s.page_table).writes) s.regs s.pc)) := by
  unfold Executor.splitOld
  rfl

theorem splitOld_pre_image (cfg : Config) (s : Executor) (code : ExitCode) :
    (Executor.splitOld cfg s code).pre_image = s.cur_segment.pre_image := by
  unfold Executor.splitOld
  rfl

theorem reach_chain (cfg : Config) (s : Executor) (h : Reach cfg s) :
    chainOk s.segments ∧ linkOk s := by
  induction h with
  | init img pc =>
    have hseg : (Executor.new cfg img pc).segments = [] := by
      unfold Executor.new
      dsimp only
      rw [startSegment_segments]
    constructor
    · rw [hseg]; exact List.chain'_nil
    · intro g hg
      rw [hseg] at hg
      simp at hg
  | step s dec ec s' hs hstep ih =>
    obtain ⟨hseg, hpre⟩ := stepF_seg cfg s dec ec s' none hstep
    constructor
    · rw [hseg]; exact ih.1
    · intro g hg
      rw [hseg] at hg
      rw [hpre]
      exact ih.2 g hg
  | stepSplit s dec ec s' s'' code hs hstep hsplit ih =>
    obtain ⟨hseg, hpre⟩ := stepF_seg cfg s dec ec s' (some code) hstep
    obtain ⟨rfl, -⟩ := split_ok_cases cfg s' code s'' hsplit
    have ih1 : chainOk s'.segments := by rw [hseg]; exact ih.1
    have ih2 : linkOk s' := by
      intro g hg
      rw [hseg] at hg
      rw [hpre]
      exact ih.2 g hg
    constructor
    · rw [chainOk, splitOk_segments]
      rw [List.chain'_append]
      refine ⟨ih1, List.chain'_singleton _, ?_⟩
      intro x hx y hy
      simp only [List.head?_cons, Option.mem_def, Option.some.injEq] at hy
      subst hy
      rw [splitOld_pre_image]
      exact ih2 x hx
    · intro g hg
      rw [splitOk_segments, List.getLast?_concat] at hg
      simp only [Option.mem_def, Option.some.injEq] at hg
      subst hg
      rw [splitOld_post, splitOk_pre]

/-! ### Split accounting lemmas -/

theorem startSegment_prev (cfg : Config) (t : Executor) :
    (Executor.startSegment cfg t).prev_segment_cycles = t.prev_segment_cycles := by
  unfold Executor.startSegment
  rfl

theorem startSegment_segment_cycle (cfg : Config) (t : Executor) :
    (Executor.startSegment cfg t).segment_cycle = t.init_cycles := by
  unfold Executor.startSegment
  rfl

theorem splitPrep_prev (cfg : Config) (s : Executor) (code : ExitCode) :
    (Executor.splitPrep cfg s code).prev_segment_cycles
      = s.prev_segment_cycles + s.segment_cycle + s.read_cycles
        + splitWriteCycles code s.write_cycles + s.fini_cycles := by
  unfold Executor.splitPrep
  rfl

theorem splitPrep_init (cfg : Config) (s : Executor) (code : ExitCode) :
    (Executor.splitPrep cfg s code).init_cycles = s.init_cycles := by
  unfold Executor.splitPrep
  rfl

theorem splitOk_prev (cfg : Config) (s : Executor) (code : ExitCode) :
    (Executor.splitOk cfg s code).prev_segment_cycles
      = s.prev_segment_cycles + s.segment_cycle + s.read_cycles
        + splitWriteCycles code s.write_cycles + s.fini_cycles := by
  unfold Executor.splitOk
  dsimp only
  rw [startSegment_prev, splitPrep_prev]

theorem splitOk_segment_cycle (cfg : Config) (s : Executor) (code : ExitCode) :
    (Executor.splitOk cfg s code).segment_cycle = s.init_cycles := by
  unfold Executor.splitOk
  dsimp only
  rw [startSegment_segment_cycle, splitPrep_init]

theorem splitWriteCycles_halted (v w : Nat) :
    splitWriteCycles (.Halted v) w = 0 := rfl

theorem splitWriteCycles_paused (v w : Nat) :
    splitWriteCycles (.Paused v) w = w := rfl

theorem splitWriteCycles_systemSplit (w : Nat) :
    splitWriteCycles .SystemSplit w = w := rfl

/-! ### Claim theorems -/

/-- Claim C7: on the first apply of an ECall marker the Executor invokes the
syscall layer immediately (here: consumes the `ec` oracle), stores the
resulting Pending ECall as the new pending op and returns `Ok(None)` without
estimating or committing anything (the state is otherwise unchanged); and an
un-applied ECall marker reaching the commit branch of apply is a panic
(modelled as `invariantViolation`). -/
theorem c7_ecall_marker (cfg : Config) (s : Executor) (ec : PendingECall)
    (hp : s.pending_op = none) :
    Executor.apply cfg s (.PendingInst .ECall) ec
        = .ok ({ s with pending_op := some (.PendingECall ec) }, none)
      ∧ ∀ t : Executor, Executor.applyCommit cfg t (.PendingInst .ECall)
        = .error .invariantViolation := by
  constructor
  · unfold Executor.apply
    rw [hp]
    rfl
  · intro t
    rfl

/-- Witness for C7 at a concrete state. -/
theorem c7_ecall_marker_witness :
    Executor.apply cfg1 (Executor.new cfg1 img0 0) (.PendingInst .ECall) haltEcall
      = .ok ({ Executor.new cfg1 img0 0 with
          pending_op := some (.PendingECall haltEcall) }, none) :=
  (c7_ecall_marker cfg1 (Executor.new cfg1 img0 0) haltEcall (by decide)).1

/-- Claim C8: `split` with `Halted` takes the read cycles but forces the
write-cycle contribution to zero, while `Paused` and `SystemSplit` take both
counters; each non-failing exit adds the old `segment_cycle + read_cycles +
write_cycles + fini_cycles` to `prev_segment_cycles` and resets
`segment_cycle` (taken to 0; `start_segment` then restarts it at
`init_cycles`); a `SessionLimit` exit fails instead. -/
theorem c8_split_accounting (cfg : Config) (s : Executor) (v : Nat) :
    (Executor.split cfg s (.Halted v)).map (fun t => t.prev_segment_cycles)
        = .ok (s.prev_segment_cycles + s.segment_cycle + s.read_cycles + 0
          + s.fini_cycles)
      ∧ (Executor.split cfg s (.Paused v)).map (fun t => t.prev_segment_cycles)
        = .ok (s.prev_segment_cycles + s.segment_cycle + s.read_cycles
          + s.write_cycles + s.fini_cycles)
      ∧ (Executor.split cfg s .SystemSplit).map (fun t => t.prev_segment_cycles)
        = .ok (s.prev_segment_cycles + s.segment_cycle + s.read_cycles
          + s.write_cycles + s.fini_cycles)
      ∧ (Executor.split cfg s (.Halted v)).map (fun t => t.segment_cycle)
        = .ok s.init_cycles
      ∧ Executor.split cfg s .SessionLimit = .error .sessionLimitExceeded := by
  refine ⟨?_, ?_, ?_, ?_, rfl⟩
  · show (Except.ok (Executor.splitOk cfg s (.Halted v))).map
      (fun t => t.prev_segment_cycles) = _
    rw [Except.map, splitOk_prev, splitWriteCycles_halted]
  · show (Except.ok (Executor.splitOk cfg s (.Paused v))).map
      (fun t => t.prev_segment_cycles) = _
    rw [Except.map, splitOk_prev, splitWriteCycles_paused]
  · show (Except.ok (Executor.splitOk cfg s .SystemSplit)).map
      (fun t => t.prev_segment_cycles) = _
    rw [Except.map, splitOk_prev, splitWriteCycles_systemSplit]
  · show (Except.ok (Executor.splitOk cfg s (.Halted v))).map
      (fun t => t.segment_cycle) = _
    rw [Except.map, splitOk_segment_cycle]

/-- Claim C1 (code bug): when `apply` finds the estimate out of cycles with
room to grow, `handle_out_of_cycles` increments `po2` and doubles
`segment_limit` and returns no exit code — but the pending operation that
`step` took out of the single pending-op slot is dropped, not retained: after
the grow the slot is `none`, and the next step consults the decode and
syscall oracles again, re-invoking the syscall layer for a Pending ECall that
had already been obtained.  Evaluated here on a concrete run: step 1
materializes `bigEcall` into the slot; step 2 applies it, grows po2 7 → 8
(limit 128 → 256) and leaves the slot empty; step 3 must re-invoke the
syscall layer (the slot is repopulated from the oracle). -/
theorem c1_pending_op_dropped :
    Executor.stepF cfg1 (Executor.new cfg1 img0 0) .ECall bigEcall
        = .ok ({ Executor.new cfg1 img0 0 with
            pending_op := some (.PendingECall bigEcall) }, none)
      ∧ (Executor.stepF cfg1
            { Executor.new cfg1 img0 0 with
                pending_op := some (.PendingECall bigEcall) }
            .ECall bigEcall).map
          (fun r => (r.1.pending_op, r.1.cur_segment.po2, r.1.segment_limit, r.2))
        = .ok (none, 8, 256, none)
      ∧ (Executor.stepF cfg1
            { Executor.new cfg1 img0 0 with
                cur_segment := { (Executor.new cfg1 img0 0).cur_segment with po2 := 8 },
                segment_limit := 256 }
            .ECall bigEcall).map (fun r => (r.1.pending_op.isSome, r.2))
        = .ok (true, none) :=
  ⟨rfl, rfl, rfl⟩

/-- Counterexample for C2: committing a MemoryLoad whose destination register
is 0 does mutate register 0 — starting from the freshly constructed Executor
(all registers 0), one step decoding `MemoryLoad {addr 4, val 5, reg 0}`
commits and `load_reg(0)` afterwards returns 5, not 0. -/
theorem c2_reg0_mutated :
    (Executor.stepF cfg1 (Executor.new cfg1 img0 0) (.MemoryLoad 4 5 0)
        dummyEcall).map (fun r => (Executor.loadReg r.1 0, r.2))
      = .ok (5, none)
    ∧ (5 : Nat) ≠ 0 :=
  ⟨rfl, by decide⟩

/-- Claim C2 (amended): writes to register 0 are suppressed only in the
RegisterStore commit: applying a RegisterStore with `reg = 0` never changes
the register file, whatever the outcome (grow, split request or commit).
MemoryLoad with destination 0 and ECall `reg_writes` naming 0 write the
register directly (see the counterexample). -/
theorem c2_regstore_suppressed (cfg : Config) (s : Executor)
    (val new_pc cycles : Nat) (ec : PendingECall) (s' : Executor)
    (oc : Option ExitCode)
    (h : Executor.apply cfg s (.PendingInst (.RegisterStore 0 val new_pc cycles)) ec
      = .ok (s', oc)) :
    s'.regs = s.regs := by
  unfold Executor.apply at h
  split at h
  · exact absurd h (by simp)
  · dsimp only at h
    split at h
    · exact absurd h (by simp)
    · next r hr =>
      split at h
      · unfold Executor.handleOutOfCycles at h
        split at h
        · dsimp only at h
          split at h
          · rw [Except.ok.injEq, Prod.mk.injEq] at h
            obtain ⟨hs', _⟩ := h
            subst hs'
            rfl
          · exact absurd h (by simp)
        · rw [Except.ok.injEq, Prod.mk.injEq] at h
          obtain ⟨hs', _⟩ := h
          subst hs'
          rfl
      · simp only [Executor.applyCommit, Executor.traceEv, Except.ok.injEq,
          Prod.mk.injEq] at h
        obtain ⟨hs', _⟩ := h
        subst hs'
        rfl

/-- Witness for the amended C2 at a concrete commit. -/
theorem c2_regstore_suppressed_witness :
    (Executor.apply cfg1 (Executor.new cfg1 img0 0)
        (.PendingInst (.RegisterStore 0 5 4 1)) dummyEcall).map (fun r => r.1.regs)
      = .ok (Executor.new cfg1 img0 0).regs := by
  obtain ⟨s', oc, h⟩ : ∃ s' oc, Executor.apply cfg1 (Executor.new cfg1 img0 0)
      (.PendingInst (.RegisterStore 0 5 4 1)) dummyEcall = .ok (s', oc) :=
    ⟨_, _, rfl⟩
  rw [h]
  simp only [Except.map]
  exact congrArg Except.ok (c2_regstore_suppressed cfg1 _ 5 4 1 dummyEcall s' oc h)

/-- Claim C3 (amended): `start_segment` sets the initial po2 to the
un-clamped ceiling log2 of `segment_cycle + read_cycles + write_cycles +
fini_cycles` (as re-established for the new segment) and sets
`segment_limit = 1 << po2`; there is no clamping into
`[MIN_CYCLES_PO2, env.segment_limit]`, so an emitted segment's po2 can lie
outside that range (see the counterexample). -/
theorem c3_start_segment_po2 (cfg : Config) (s : Executor) :
    (Executor.startSegment cfg s).cur_segment.po2
        = log2_ceil ((Executor.startSegment cfg s).segment_cycle
          + (Executor.startSegment cfg s).read_cycles
          + (Executor.startSegment cfg s).write_cycles
          + (Executor.startSegment cfg s).fini_cycles)
      ∧ (Executor.startSegment cfg s).segment_limit
        = 2 ^ (Executor.startSegment cfg s).cur_segment.po2 := by
  unfold Executor.startSegment
  exact ⟨rfl, rfl⟩

/-- Counterexample for C3: a complete halting run under `cfg1`
(`MIN_CYCLES_PO2 = 13`, `env.segment_limit` po2 = 10) emits its only segment
with `po2 = 7`: the value `log2_ceil(114) = 7` was not clamped into
`[MIN_CYCLES_PO2, env.segment_limit]`, and the emitted segment's po2 lies
below `MIN_CYCLES_PO2`, contradicting the claimed consequence. -/
theorem c3_unclamped_po2 :
    (Executor.runLoop cfg1 5 (Executor.new cfg1 img0 0) [.ECall] [haltEcall]).map
        (fun sess => sess.segments.map (fun g => g.po2))
      = .ok [7]
    ∧ cfg1.minCyclesPo2 = 13
    ∧ ¬ (13 ≤ 7) :=
  ⟨rfl, rfl, by decide⟩

/-- Claim C4 (amended): in every reachable Executor state — after each step,
after each estimate that grew or split, and at every segment boundary — the
non-strict bound `segment_cycle + read_cycles + write_cycles + fini_cycles ≤
segment_limit` holds.  The claimed strict `+ 1` slack fails right after
`start_segment` whenever the initial sum is an exact power of two (see the
counterexample). -/
theorem c4_budget_le (cfg : Config) (s : Executor) (h : Reach cfg s) :
    s.segment_cycle + s.read_cycles + s.write_cycles + s.fini_cycles
      ≤ s.segment_limit :=
  (reach_budget cfg s h).1

/-- Witness for the amended C4 at the freshly constructed state. -/
theorem c4_budget_le_witness :
    (Executor.new cfg0 img0 0).segment_cycle + (Executor.new cfg0 img0 0).read_cycles
        + (Executor.new cfg0 img0 0).write_cycles
        + (Executor.new cfg0 img0 0).fini_cycles
      ≤ (Executor.new cfg0 img0 0).segment_limit :=
  c4_budget_le cfg0 (Executor.new cfg0 img0 0) (Reach.init img0 0)

/-- Counterexample for C4: at the segment boundary produced by constructing
the Executor under `cfg0`, the sum `segment_cycle + read_cycles +
write_cycles + fini_cycles` is 128 — exactly the segment limit
`1 << log2_ceil(128)` — so the claimed invariant `sum + 1 ≤ segment_limit`
is violated at an observable point. -/
theorem c4_budget_violated :
    ¬ ((Executor.new cfg0 img0 0).segment_cycle
        + (Executor.new cfg0 img0 0).read_cycles
        + (Executor.new cfg0 img0 0).write_cycles
        + (Executor.new cfg0 img0 0).fini_cycles + 1
      ≤ (Executor.new cfg0 img0 0).segment_limit) := by decide

/-- Claim C5 (amended): `segment_cycles_remaining` computes `segment_limit -
segment_cycle - read_cycles - write_cycles - fini_cycles - 1` in unsigned
arithmetic; whenever the subtracted terms sum to strictly less than
`segment_limit` (and the limit is the power of two of the segment's po2, as
in every reachable state), the step it serves cannot raise the underflow
panic, and a step that stays inside the segment preserves the strict bound.
On the first call after a `start_segment` whose sum is an exact power of two
the strict bound fails and the subtraction does wrap/panic (see the
counterexample). -/
theorem c5_remaining_preserved (cfg : Config) (s : Executor) (dec : PendingInst)
    (ec : PendingECall)
    (hlim : s.segment_limit = 2 ^ s.cur_segment.po2)
    (hb : s.segment_cycle + s.read_cycles + s.write_cycles + s.fini_cycles + 1
      ≤ s.segment_limit) :
    Executor.stepF cfg s dec ec ≠ .error .cycleUnderflow
      ∧ ∀ s', Executor.stepF cfg s dec ec = .ok (s', none) →
          s'.segment_cycle + s'.read_cycles + s'.write_cycles + s'.fini_cycles + 1
            ≤ s'.segment_limit := by
  constructor
  · unfold Executor.stepF
    split
    · exact apply_no_cu cfg _ _ ec hb
    · exact apply_no_cu cfg _ _ ec hb
  · intro s' hs'
    unfold Executor.stepF at hs'
    split at hs'
    · exact apply_strict cfg _ _ ec s' none hs' hlim hb
    · exact apply_strict cfg _ _ ec s' none hs' hlim hb

/-- Witness for the amended C5 at a concrete state with slack. -/
theorem c5_remaining_preserved_witness :
    Executor.stepF cfg1 (Executor.new cfg1 img0 0) (.RegisterStore 1 5 4 1)
      dummyEcall ≠ .error .cycleUnderflow :=
  (c5_remaining_preserved cfg1 (Executor.new cfg1 img0 0) (.RegisterStore 1 5 4 1)
    dummyEcall (by decide) (by decide)).1

/-- Counterexample for C5: under `cfg0` the freshly started segment has
`segment_cycle + read_cycles + write_cycles + fini_cycles = 128 =
segment_limit` (the sum is an exact power of two), so on the very first
estimate the subtracted terms do NOT sum to strictly less than
`segment_limit` and `segment_cycles_remaining` underflows: the step fails
with the modelled panic. -/
theorem c5_underflow :
    Executor.stepF cfg0 (Executor.new cfg0 img0 0) (.RegisterStore 1 5 4 1)
        dummyEcall = .error .cycleUnderflow
    ∧ (Executor.new cfg0 img0 0).segment_cycle + (Executor.new cfg0 img0 0).read_cycles
        + (Executor.new cfg0 img0 0).write_cycles
        + (Executor.new cfg0 img0 0).fini_cycles
      = (Executor.new cfg0 img0 0).segment_limit :=
  ⟨rfl, by decide⟩

/-- Claim C6: for every reachable state of every run, the emitted segments
chain: `segment[i].post_image_id = segment[i+1].pre_image.compute_id()` for
all adjacent pairs.  At each split the write-faulted pages and the register
file (plus pc) are folded into the next pre-image, `hash_pages` is run, and
the old segment's `post_image_id` is set to that pre-image's root, which is
exactly what the chain invariant tracks. -/
theorem c6_chaining (cfg : Config) (s : Executor) (h : Reach cfg s) :
    chainOk s.segments :=
  (reach_chain cfg s h).1

/-- Witness for C6 at a reachable state. -/
theorem c6_chaining_witness :
    chainOk (Executor.new cfg0 img0 0).segments :=
  c6_chaining cfg0 (Executor.new cfg0 img0 0) (Reach.init img0 0)

/-- Claim C9: committing a Pending ECall applies its `reg_writes` in the
order supplied and then its `ram_writes` in the order supplied, each write
emitting its `RegisterSet` / `MemorySet` trace event at that point, so the
trace is extended (after the `InstructionStart` event) by exactly the
register events followed by the RAM events, in commit order, with none
dropped; afterwards the optional syscall record is appended to the segment's
syscall log, the pc is incremented by 4 and apply returns the ecall's exit
code (the segment cycle also advances by the ecall's base cycles). -/
theorem c9_ecall_commit_order (cfg : Config) (s : Executor) (e : PendingECall)
    (ec : PendingECall) (r : Nat) (s' : Executor) (oc : Option ExitCode)
    (hr : Executor.segmentCyclesRemaining s = .ok r)
    (hn : opCost cfg s.page_table (.PendingECall e)
        + cyclesNeeded cfg s.page_table (s.pc / cfg.pageSize) .Load < r)
    (h : Executor.apply cfg s (.PendingECall e) ec = .ok (s', oc)) :
    oc = e.exit_code
      ∧ s'.pc = s.pc + 4
      ∧ s'.trace = s.trace ++ [TraceEvent.InstructionStart s.segment_cycle s.pc]
          ++ e.reg_writes.map (fun rv => TraceEvent.RegisterSet rv.1 rv.2)
          ++ e.ram_writes.map (fun av => TraceEvent.MemorySet av.1 av.2)
      ∧ s'.regs = e.reg_writes.foldl (fun r2 rv => r2.set rv.1 rv.2) s.regs
      ∧ s'.ram = e.ram_writes.foldl (fun m av => storeWord m av.1 av.2) s.ram
      ∧ s'.cur_segment.syscalls = s.cur_segment.syscalls ++ e.syscall.toList
      ∧ s'.segment_cycle = s.segment_cycle + e.cycles := by
  unfold Executor.apply at h
  split at h
  · exact absurd h (by simp)
  · dsimp only at h
    split at h
    · exact absurd h (by simp)
    · next r2 hr2 =>
      rw [hr] at hr2
      rw [Except.ok.injEq] at hr2
      subst hr2
      split at h
      · next hle => exfalso; omega
      · simp only [Executor.applyCommit, Executor.traceEv, applyRegWrites_eq,
          applyRamWrites_eq, Except.ok.injEq, Prod.mk.injEq] at h
        obtain ⟨hs', hoc⟩ := h
        subst hs'
        exact ⟨hoc.symm, rfl, rfl, rfl, rfl, rfl, rfl⟩

/-- Witness for C9 at a concrete commit of `wEcall`. -/
theorem c9_ecall_commit_order_witness :
    (Executor.apply cfg1 (Executor.new cfg1 img0 0) (.PendingECall wEcall)
        dummyEcall).map (fun res => res.2) = .ok (some (.Halted 0)) := by
  obtain ⟨s', oc, h⟩ : ∃ s' oc, Executor.apply cfg1 (Executor.new cfg1 img0 0)
      (.PendingECall wEcall) dummyEcall = .ok (s', oc) := ⟨_, _, rfl⟩
  have hc := c9_ecall_commit_order cfg1 (Executor.new cfg1 img0 0) wEcall
    dummyEcall 13 s' oc (by rfl) (by decide) h
  rw [h]
  simp only [Except.map]
  rw [hc.1]
  rfl

/-- Claim C10 (amended): the session-limit check
`prev_segment_cycles + segment_cycle ≤ env.session_limit` runs after every
step that does not terminate the run: after a step with no exit code, and
after the split of a `SystemSplit` exit, an exceeded bound fails the run with
`SessionLimitExceeded` before anything else happens; independently, `split`
invoked with the `SessionLimit` exit code always fails with
`SessionLimitExceeded`.  A step that exits with `Halted`/`Paused` breaks out
of the loop before the check (see the counterexample), so the terminal
segment can exceed the limit without an error. -/
theorem c10_session_checks (cfg : Config) :
    (∀ s : Executor, Executor.split cfg s .SessionLimit
        = .error .sessionLimitExceeded)
      ∧ (∀ (fuel : Nat) (s : Executor) (decs : List PendingInst)
          (ecs : List PendingECall) (s' : Executor) (decs' : List PendingInst)
          (ecs' : List PendingECall),
          Executor.stepD cfg s decs ecs = .ok (s', decs', ecs', none) →
          cfg.sessionLimit < s'.prev_segment_cycles + s'.segment_cycle →
          Executor.runLoop cfg (fuel + 1) s decs ecs
            = .error .sessionLimitExceeded)
      ∧ (∀ (fuel : Nat) (s : Executor) (decs : List PendingInst)
          (ecs : List PendingECall) (s' : Executor) (decs' : List PendingInst)
          (ecs' : List PendingECall) (s'' : Executor),
          Executor.stepD cfg s decs ecs = .ok (s', decs', ecs', some .SystemSplit) →
          Executor.split cfg s' .SystemSplit = .ok s'' →
          cfg.sessionLimit < s''.prev_segment_cycles + s''.segment_cycle →
          Executor.runLoop cfg (fuel + 1) s decs ecs
            = .error .sessionLimitExceeded) := by
  refine ⟨fun s => rfl, ?_, ?_⟩
  · intro fuel s decs ecs s' decs' ecs' hstep hgt
    unfold Executor.runLoop
    rw [hstep]
    dsimp only
    rw [if_pos hgt]
  · intro fuel s decs ecs s' decs' ecs' s'' hstep hsp hgt
    unfold Executor.runLoop
    rw [hstep]
    dsimp only
    rw [hsp]
    dsimp only
    rw [if_pos hgt]

/-- Witness for the amended C10: with a session limit of 5 the very first
step (prev 0, segment_cycle 10) exceeds it and the run fails. -/
theorem c10_session_checks_witness :
    Executor.runLoop c10wcfg 3 (Executor.new c10wcfg img0 0) [.ECall] [haltEcall]
      = .error .sessionLimitExceeded := by
  exact (c10_session_checks c10wcfg).2.1 2 (Executor.new c10wcfg img0 0)
    [.ECall] [haltEcall] _ _ _ (by rfl) (by decide)

/-- Counterexample for C10: under `c10cfg` (session limit 50) the halting run
ends with `prev_segment_cycles = 114 > 50` at the final split, yet
`run_with_callback` returns a Session instead of failing: the step that
exits with `Halted` breaks out of the loop before the session-limit check,
so the bound is not checked after every step. -/
theorem c10_limit_not_checked :
    (Executor.stepF c10cfg c10s1 .ECall haltEcall).map (fun r => r.2)
        = .ok (some (.Halted 0))
      ∧ (Executor.split c10cfg c10s2 (.Halted 0)).map
          (fun t => t.prev_segment_cycles) = .ok 114
      ∧ c10cfg.sessionLimit < 114
      ∧ (Executor.runLoop c10cfg 5 (Executor.new c10cfg img0 0) [.ECall]
          [haltEcall]).map (fun sess => sess.exit_code) = .ok (.Halted 0) :=
  ⟨rfl, rfl, by decide, rfl⟩
